import Mathlib

/-!
Verification of the `sample` package: a shallow embedding of
`sample/sample.go` (token-sampling strategies: temperature scaling, softmax,
top-k, top-p, min-p, weighted and greedy selection, and the pipeline driver).

Floating-point values are modelled as `F`: either the NaN sentinel used by the
code to mark excluded tokens, or a real number.  The arithmetic operations
propagate NaN exactly as IEEE-754 does for the operations the code uses
(the model has no infinities; exponent overflow and signed zero play no role
in the verified properties).  Two comparison notions are distinguished, as in
the code: IEEE `<`/`>` (any comparison with NaN is false), used in branch
conditions, and the total order of Go's `cmp.Compare` / `slices.Sort`
(NaN ordered below every number), used by the sorts.
-/

attribute [local instance] Classical.propDecidable

/-- A float64 value: the NaN sentinel or a (finite) real. -/
inductive F where
  | nan : F
  | fin : ℝ → F

/-- `math.IsNaN`. -/
def F.isNaN : F → Bool
  | .nan => true
  | .fin _ => false

/-- The real carried by an `F`, defaulting NaN to `0` (used only to state
theorems about sentinel-free data). -/
def F.val : F → ℝ
  | .nan => 0
  | .fin a => a

/-- IEEE addition restricted to NaN/finite: NaN propagates. -/
def fadd : F → F → F
  | .fin a, .fin b => .fin (a + b)
  | _, _ => .nan

/-- IEEE subtraction: NaN propagates. -/
def fsub : F → F → F
  | .fin a, .fin b => .fin (a - b)
  | _, _ => .nan

/-- IEEE multiplication on NaN/finite values: NaN propagates. -/
def fmul : F → F → F
  | .fin a, .fin b => .fin (a * b)
  | _, _ => .nan

/-- IEEE division on NaN/finite values: NaN propagates.  (Division of a
nonzero finite by zero would give an infinity, which the model omits; no
verified code path divides by zero.) -/
noncomputable def fdiv : F → F → F
  | .fin a, .fin b => .fin (a / b)
  | _, _ => .nan

/-- `math.Exp`: NaN propagates, finite values map through the real `exp`. -/
noncomputable def fexp : F → F
  | .nan => .nan
  | .fin a => .fin (Real.exp a)

/-- IEEE strict less-than: false whenever either side is NaN. -/
def flt : F → F → Prop
  | .fin a, .fin b => a < b
  | _, _ => False

/-- IEEE strict greater-than: false whenever either side is NaN. -/
def fgt (x y : F) : Prop := flt y x

/-- The total order of Go's `cmp.Compare` / `slices.Sort` on float64:
NaN is ordered below every value. -/
def fle : F → F → Prop
  | .nan, _ => True
  | .fin _, .nan => False
  | .fin a, .fin b => a ≤ b

@[simp] theorem fadd_fin_fin (a b : ℝ) : fadd (F.fin a) (F.fin b) = F.fin (a + b) := rfl
@[simp] theorem fadd_nan_left (x : F) : fadd F.nan x = F.nan := by cases x <;> rfl
@[simp] theorem fadd_nan_right (x : F) : fadd x F.nan = F.nan := by cases x <;> rfl
@[simp] theorem fmul_fin_fin (a b : ℝ) : fmul (F.fin a) (F.fin b) = F.fin (a * b) := rfl
@[simp] theorem fmul_nan_left (x : F) : fmul F.nan x = F.nan := by cases x <;> rfl
@[simp] theorem fmul_nan_right (x : F) : fmul x F.nan = F.nan := by cases x <;> rfl
@[simp] theorem fdiv_nan_right (x : F) : fdiv x F.nan = F.nan := by cases x <;> rfl
@[simp] theorem fdiv_fin_fin (a b : ℝ) : fdiv (F.fin a) (F.fin b) = F.fin (a / b) := rfl
@[simp] theorem fsub_fin_fin (a b : ℝ) : fsub (F.fin a) (F.fin b) = F.fin (a - b) := rfl
@[simp] theorem fexp_nan : fexp F.nan = F.nan := rfl
@[simp] theorem fexp_fin (a : ℝ) : fexp (F.fin a) = F.fin (Real.exp a) := rfl
@[simp] theorem flt_nan_right (x : F) : ¬ flt x F.nan := by cases x <;> simp [flt]
@[simp] theorem flt_nan_left (x : F) : ¬ flt F.nan x := by cases x <;> simp [flt]
@[simp] theorem flt_fin_fin (a b : ℝ) : flt (F.fin a) (F.fin b) ↔ a < b := Iff.rfl
@[simp] theorem fle_nan_left (x : F) : fle F.nan x := by cases x <;> simp [fle]
@[simp] theorem fle_fin_fin (a b : ℝ) : fle (F.fin a) (F.fin b) ↔ a ≤ b := Iff.rfl
@[simp] theorem fle_fin_nan (a : ℝ) : ¬ fle (F.fin a) F.nan := by simp [fle]
@[simp] theorem isNaN_nan : F.nan.isNaN = true := rfl
@[simp] theorem isNaN_fin (a : ℝ) : (F.fin a).isNaN = false := rfl
@[simp] theorem val_fin (a : ℝ) : (F.fin a).val = a := rfl

theorem fle_total (x y : F) : fle x y ∨ fle y x := by
  cases x <;> cases y <;> simp [fle] <;> exact le_total _ _

theorem fle_trans {x y z : F} (h1 : fle x y) (h2 : fle y z) : fle x z := by
  cases x <;> cases y <;> cases z <;> simp_all [fle] <;> exact le_trans h1 h2

theorem fle_refl (x : F) : fle x x := by cases x <;> simp [fle]

/-- `gonum floats.Sum`: running sum starting at `0`. -/
def fsumF (l : List F) : F := l.foldl fadd (F.fin 0)

theorem foldl_fadd_fin (u : List ℝ) :
    ∀ a : ℝ, (u.map F.fin).foldl fadd (F.fin a) = F.fin (a + u.sum) := by
  induction u with
  | nil => intro a; simp
  | cons x xs ih => intro a; simp [ih, add_assoc]

@[simp] theorem fsumF_map_fin (u : List ℝ) : fsumF (u.map F.fin) = F.fin u.sum := by
  simp [fsumF, foldl_fadd_fin]

theorem foldl_fadd_of_nan_mem (l : List F) :
    ∀ acc : F, F.nan ∈ l → l.foldl fadd acc = F.nan := by
  induction l with
  | nil => intro acc h; simp at h
  | cons x xs ih =>
      intro acc h
      rcases List.mem_cons.mp h with h1 | h1
      · subst h1
        simp only [List.foldl_cons, fadd_nan_right]
        by_cases hmem : F.nan ∈ xs
        · exact ih _ hmem
        · clear ih h
          induction xs with
          | nil => rfl
          | cons y ys ih2 => simp only [List.foldl_cons, fadd_nan_left]; exact ih2 (by simp_all)
      · exact ih _ h1

theorem fsumF_of_nan_mem {l : List F} (h : F.nan ∈ l) : fsumF l = F.nan :=
  foldl_fadd_of_nan_mem l _ h

/-- `computeSoftmax`: exponentiate a copy of the input, then scale every
entry by the reciprocal of the sum of exponentials (`floats.Scale`). -/
noncomputable def computeSoftmaxF (logits : List F) : List F :=
  let copiedLogits := logits.map fexp
  let floatSum := fsumF copiedLogits
  copiedLogits.map (fun x => fmul x (fdiv (F.fin 1) floatSum))

/-- `softmax.Sample` (the `Softmax()` sampler): wraps `computeSoftmax`,
which never fails. -/
noncomputable def softmaxSample (logits : List F) : Except String (List F) :=
  .ok (computeSoftmaxF logits)

/-- The real-valued softmax computed by `computeSoftmax` on sentinel-free
input. -/
noncomputable def softmaxR (u : List ℝ) : List ℝ :=
  (u.map Real.exp).map (fun x => x * (1 / (u.map Real.exp).sum))

theorem computeSoftmaxF_map_fin (u : List ℝ) :
    computeSoftmaxF (u.map F.fin) = (softmaxR u).map F.fin := by
  have h1 : (u.map F.fin).map fexp = (u.map Real.exp).map F.fin := by
    simp [List.map_map, Function.comp]
  simp only [computeSoftmaxF, h1, fsumF_map_fin, softmaxR]
  simp only [List.map_map]
  refine List.map_congr_left fun a _ => ?_
  simp [Function.comp]

@[simp] theorem softmaxR_length (u : List ℝ) : (softmaxR u).length = u.length := by
  simp [softmaxR]

theorem exp_sum_pos (u : List ℝ) (hu : u ≠ []) : 0 < (u.map Real.exp).sum := by
  cases u with
  | nil => exact absurd rfl hu
  | cons x xs =>
      have h1 : 0 < Real.exp x := Real.exp_pos x
      have h2 : 0 ≤ (xs.map Real.exp).sum :=
        List.sum_nonneg (by intro y hy; simp only [List.mem_map] at hy
                            obtain ⟨z, _, rfl⟩ := hy; exact (Real.exp_pos z).le)
      simp only [List.map_cons, List.sum_cons]
      linarith

theorem softmaxR_pos {u : List ℝ} (hu : u ≠ []) : ∀ x ∈ softmaxR u, 0 < x := by
  intro x hx
  simp only [softmaxR, List.map_map, List.mem_map, Function.comp] at hx
  obtain ⟨z, _, rfl⟩ := hx
  have hs := exp_sum_pos u hu
  positivity

theorem softmaxR_sum (u : List ℝ) (hu : u ≠ []) : (softmaxR u).sum = 1 := by
  have hs := exp_sum_pos u hu
  have h := List.sum_map_mul_right (u.map Real.exp) id (1 / (u.map Real.exp).sum)
  simp only [id, List.map_id] at h
  simp only [softmaxR, h]
  field_simp

theorem softmaxR_getD (u : List ℝ) (i : ℕ) (hi : i < u.length) :
    (softmaxR u).getD i 0 = Real.exp (u.getD i 0) * (1 / (u.map Real.exp).sum) := by
  rw [List.getD_eq_getElem _ _ (by simpa using hi), List.getD_eq_getElem _ _ hi]
  simp [softmaxR]

/-- `gonum floats.MaxIdx` inner loop: scan with running maximum (initially
NaN) and its index; NaN entries are skipped, and a non-NaN entry replaces a
NaN running maximum.  Ties keep the earlier index (strict `>`). -/
noncomputable def maxIdxAux : List F → ℕ → F → ℕ → ℕ
  | [], _, _, ind => ind
  | F.nan :: rest, i, m, ind => maxIdxAux rest (i + 1) m ind
  | F.fin x :: rest, i, F.nan, _ => maxIdxAux rest (i + 1) (F.fin x) i
  | F.fin x :: rest, i, F.fin b, ind =>
      if b < x then maxIdxAux rest (i + 1) (F.fin x) i
      else maxIdxAux rest (i + 1) (F.fin b) ind

/-- `gonum floats.MaxIdx` (0 on the empty slice, where Go panics). -/
noncomputable def maxIdxGo (s : List F) : ℕ := maxIdxAux s 0 F.nan 0

/-- `gonum floats.Max`: the value at `MaxIdx`. -/
noncomputable def fmaxGo (s : List F) : F := s.getD (maxIdxGo s) F.nan

/-- `Temperature.Sample`: validate `t`, subtract the maximum logit from every
entry and divide by `math.Max(t, 1e-7)`. -/
noncomputable def temperatureSample (t : ℝ) (logits : List F) : Except String (List F) :=
  if t < 0 ∨ 2 < t then .error "temperature must be between 0 and 2"
  else
    .ok (logits.map (fun x => fdiv (fsub x (fmaxGo logits)) (F.fin (max t (1 / 10000000)))))

/-- `greedy.Sample`: the single-element sequence holding `floats.MaxIdx`. -/
noncomputable def greedySample (logits : List F) : Except String (List F) :=
  .ok [F.fin ((maxIdxGo logits : ℕ) : ℝ)]

/-- The index permutation produced by `slices.SortFunc(indices, cmp.Compare(
vals[j], vals[i]))`: indices of `vals` sorted by descending value in the
`cmp.Compare` order (NaN below every number). -/
noncomputable def sortIdxDesc (vals : List F) : List ℕ :=
  @List.insertionSort ℕ (fun i j => fle (vals.getD j F.nan) (vals.getD i F.nan))
    (fun _ _ => Classical.propDecidable _) (List.range vals.length)

/-- The in-place loop `for _, idx := range toDrop { logits[idx] = math.NaN() }`. -/
def setNaNs (logits : List F) (idxs : List ℕ) : List F :=
  idxs.foldl (fun acc i => acc.set i F.nan) logits

/-- `TopK.Sample`: validate `k`; identity when `int(k) >= len(logits)`;
otherwise overwrite the positions ranked after the first `k` with NaN. -/
noncomputable def topKSample (k : ℤ) (logits : List F) : Except String (List F) :=
  if k ≤ 0 then .error "k must be positive"
  else if (logits.length : ℤ) ≤ k then .ok logits
  else .ok (setNaNs logits ((sortIdxDesc logits).drop k.toNat))

/-- The cumulative-sum loop of `TopP.Sample`: walk the descending index
order accumulating probability; on the first prefix whose accumulated sum
exceeds `p`, overwrite every remaining position with NaN and stop. -/
noncomputable def topPLoop (p : ℝ) (logits probs : List F) : List ℕ → F → List F
  | [], _ => logits
  | idx :: rest, cumSum =>
      if fgt (fadd cumSum (probs.getD idx F.nan)) (F.fin p) then setNaNs logits rest
      else topPLoop p logits probs rest (fadd cumSum (probs.getD idx F.nan))

/-- `TopP.Sample`: validate `p`, compute softmax probabilities, sort the
indices by descending probability and run the cumulative-sum loop. -/
noncomputable def topPSample (p : ℝ) (logits : List F) : Except String (List F) :=
  if p ≤ 0 ∨ 1 ≤ p then .error "p must be between 0 and 1"
  else .ok (topPLoop p logits (computeSoftmaxF logits)
        (sortIdxDesc (computeSoftmaxF logits)) (F.fin 0))

/-- `slices.Sort` on float64 values: ascending in the `cmp.Compare` order,
NaN ordered first. -/
noncomputable def sortAscF (l : List F) : List F :=
  @List.insertionSort F fle (fun _ _ => Classical.propDecidable _) l

/-- The marking loop of `MinP.Sample`: overwrite with NaN every position
whose probability is (IEEE-)strictly below the threshold. -/
noncomputable def minPMark (logits probs : List F) (thr : F) : List F :=
  (List.range probs.length).foldl
    (fun acc i => if flt (probs.getD i F.nan) thr then acc.set i F.nan else acc) logits

/-- `MinP.Sample`: validate `p`, compute softmax probabilities, take the last
entry of an ascending sort of a copy as the maximum probability, and mark
every position with probability strictly below `p * maxProb`. -/
noncomputable def minPSample (p : ℝ) (logits : List F) : Except String (List F) :=
  if p ≤ 0 ∨ 1 ≤ p then .error "p must be between 0 and 1"
  else
    .ok (minPMark logits (computeSoftmaxF logits)
      (fmul (F.fin p)
        ((sortAscF (computeSoftmaxF logits)).getD
          ((sortAscF (computeSoftmaxF logits)).length - 1) F.nan)))

/-- `weighed.Sample`: compact away NaN positions keeping the index mapping,
fail when nothing survives, softmax the survivors and draw one of them with
the injected weighted-choice capability `take` (`sampleuv.Weighted.Take`);
`none` models `Take` reporting failure. -/
noncomputable def weighedSample (take : List F → Option ℕ) (logits : List F) :
    Except String (List F) :=
  if ((logits.enum.filter (fun pr => !pr.2.isNaN)).map (fun pr => pr.2)).length = 0 then
    .error "no valid tokens found"
  else
    match take (computeSoftmaxF ((logits.enum.filter (fun pr => !pr.2.isNaN)).map
        (fun pr => pr.2))) with
    | some v =>
        .ok [F.fin ((((logits.enum.filter (fun pr => !pr.2.isNaN)).map
          (fun pr => pr.1)).getD v 0 : ℕ) : ℝ)]
    | none => .error "weighed sampler failed"

/-- The closed set of strategies implementing the `Sampler` interface. -/
inductive GoSampler where
  | temperature (t : ℝ)
  | softmaxS
  | topK (k : ℤ)
  | topP (p : ℝ)
  | minP (p : ℝ)
  | weighed
  | greedy

/-- Dynamic dispatch of `Sampler.Sample`. -/
noncomputable def runSampler (take : List F → Option ℕ) :
    GoSampler → List F → Except String (List F)
  | .temperature t, l => temperatureSample t l
  | .softmaxS, l => softmaxSample l
  | .topK k, l => topKSample k l
  | .topP p, l => topPSample p l
  | .minP p, l => minPSample p l
  | .weighed, l => weighedSample take l
  | .greedy, l => greedySample l

/-- The pipeline driver `Sample`: thread the vector through the strategies in
order, aborting on the first error; a strategy equal to `Temperature(0)`
short-circuits to greedy selection. -/
noncomputable def sampleDriver (take : List F → Option ℕ) :
    List GoSampler → List F → Except String (List F)
  | [], logits => .ok logits
  | s :: rest, logits =>
      if s = GoSampler.temperature 0 then greedySample logits
      else
        match runSampler take s logits with
        | .error e => .error e
        | .ok l2 => sampleDriver take rest l2

@[simp] theorem setNaNs_nil (l : List F) : setNaNs l [] = l := rfl

theorem setNaNs_cons (l : List F) (i : ℕ) (idxs : List ℕ) :
    setNaNs l (i :: idxs) = setNaNs (l.set i F.nan) idxs := rfl

theorem setNaNs_length (idxs : List ℕ) : ∀ l : List F, (setNaNs l idxs).length = l.length := by
  induction idxs with
  | nil => intro l; rfl
  | cons i rest ih => intro l; rw [setNaNs_cons, ih, List.length_set]

theorem setNaNs_getD_not_mem {idxs : List ℕ} {j : ℕ} (h : j ∉ idxs) :
    ∀ (l : List F) (d : F), (setNaNs l idxs).getD j d = l.getD j d := by
  induction idxs with
  | nil => intro l d; rfl
  | cons i rest ih =>
      intro l d
      have hji : j ≠ i := fun he => h (he ▸ List.mem_cons_self i rest)
      have hjr : j ∉ rest := fun he => h (List.mem_cons_of_mem i he)
      rw [setNaNs_cons, ih hjr]
      simp [List.getD_eq_getElem?_getD, List.getElem?_set_ne (Ne.symm hji)]

theorem setNaNs_getD_mem {idxs : List ℕ} {j : ℕ} (h : j ∈ idxs) :
    ∀ l : List F, j < l.length → (setNaNs l idxs).getD j F.nan = F.nan := by
  induction idxs with
  | nil => simp at h
  | cons i rest ih =>
      intro l hj
      by_cases hr : j ∈ rest
      · exact ih hr _ (by rw [List.length_set]; exact hj)
      · have hji : j = i := by
          rcases List.mem_cons.mp h with h1 | h1
          · exact h1
          · exact absurd h1 hr
        subst hji
        rw [setNaNs_cons, setNaNs_getD_not_mem hr]
        simp [List.getD_eq_getElem?_getD, List.getElem?_set_self, hj]

theorem getD_map_fin (u : List ℝ) {i : ℕ} (hi : i < u.length) :
    (u.map F.fin).getD i F.nan = F.fin (u.getD i 0) := by
  rw [List.getD_eq_getElem _ _ (by simpa using hi), List.getD_eq_getElem _ _ hi]
  simp

/-- The relation by which `sortIdxDesc vals` is ordered. -/
def descRel (vals : List F) (i j : ℕ) : Prop :=
  fle (vals.getD j F.nan) (vals.getD i F.nan)

theorem sortIdxDesc_perm (vals : List F) :
    (sortIdxDesc vals).Perm (List.range vals.length) :=
  List.perm_insertionSort _ _

theorem sortIdxDesc_sorted (vals : List F) :
    List.Sorted (descRel vals) (sortIdxDesc vals) := by
  haveI : IsTotal ℕ (descRel vals) := ⟨fun i j => fle_total _ _⟩
  haveI : IsTrans ℕ (descRel vals) := ⟨fun _ _ _ h1 h2 => fle_trans h2 h1⟩
  exact List.sorted_insertionSort (descRel vals) _

theorem sortIdxDesc_nodup (vals : List F) : (sortIdxDesc vals).Nodup :=
  (sortIdxDesc_perm vals).nodup_iff.mpr (List.nodup_range _)

theorem mem_sortIdxDesc {vals : List F} {i : ℕ} :
    i ∈ sortIdxDesc vals ↔ i < vals.length := by
  rw [(sortIdxDesc_perm vals).mem_iff, List.mem_range]

theorem sortIdxDesc_length (vals : List F) : (sortIdxDesc vals).length = vals.length := by
  rw [(sortIdxDesc_perm vals).length_eq, List.length_range]

theorem sortAscF_perm (l : List F) : (sortAscF l).Perm l :=
  List.perm_insertionSort _ _

theorem sortAscF_sorted (l : List F) : List.Sorted fle (sortAscF l) := by
  haveI : IsTotal F fle := ⟨fle_total⟩
  haveI : IsTrans F fle := ⟨fun _ _ _ => fle_trans⟩
  exact List.sorted_insertionSort _ _

/-- C6: Temperature reports an invalid-configuration error exactly for `t`
outside `[0,2]`, TopK exactly for `k ≤ 0`, TopP and MinP exactly for `p`
outside the open interval `(0,1)`; each check precedes the stage's transform,
which in this pure embedding means the error branch returns without touching
the vector. -/
theorem c6_config_errors :
    (∀ (t : ℝ) (v : List F), v ≠ [] →
      (temperatureSample t v = .error "temperature must be between 0 and 2" ↔
        t < 0 ∨ 2 < t)) ∧
    (∀ (k : ℤ) (v : List F),
      (topKSample k v = .error "k must be positive" ↔ k ≤ 0)) ∧
    (∀ (p : ℝ) (v : List F),
      (topPSample p v = .error "p must be between 0 and 1" ↔ p ≤ 0 ∨ 1 ≤ p)) ∧
    (∀ (p : ℝ) (v : List F), v ≠ [] →
      (minPSample p v = .error "p must be between 0 and 1" ↔ p ≤ 0 ∨ 1 ≤ p)) := by
  refine ⟨fun t v _ => ?_, fun k v => ?_, fun p v => ?_, fun p v _ => ?_⟩
  · by_cases h : t < 0 ∨ 2 < t <;> simp [temperatureSample, h]
  · by_cases h : k ≤ 0
    · simp [topKSample, h]
    · by_cases h2 : (v.length : ℤ) ≤ k <;> simp [topKSample, h, h2]
  · by_cases h : p ≤ 0 ∨ 1 ≤ p <;> simp [topPSample, h]
  · by_cases h : p ≤ 0 ∨ 1 ≤ p <;> simp [minPSample, h]

theorem c6_config_errors_witness :
    temperatureSample 3 [F.fin 1] = .error "temperature must be between 0 and 2" ∧
    topKSample (-1) [] = .error "k must be positive" ∧
    topPSample 2 [] = .error "p must be between 0 and 1" ∧
    minPSample (1 / 2) [F.fin 1] ≠ .error "p must be between 0 and 1" :=
  ⟨(c6_config_errors.1 3 [F.fin 1] (by simp)).mpr (by norm_num),
   (c6_config_errors.2.1 (-1) []).mpr (by norm_num),
   (c6_config_errors.2.2.1 2 []).mpr (by norm_num),
   fun h => by
     rcases (c6_config_errors.2.2.2 (1 / 2) [F.fin 1] (by simp)).mp h with h1 | h1 <;>
       norm_num at h1⟩

theorem maxIdxAux_shift (c : ℝ) : ∀ (u : List ℝ) (i0 : ℕ) (b : ℝ) (ind : ℕ),
    maxIdxAux ((u.map (fun x => x + c)).map F.fin) i0 (F.fin (b + c)) ind =
      maxIdxAux (u.map F.fin) i0 (F.fin b) ind := by
  intro u
  induction u with
  | nil => intro i0 b ind; rfl
  | cons x xs ih =>
      intro i0 b ind
      simp only [List.map_cons, maxIdxAux]
      by_cases h : b < x
      · rw [if_pos (by linarith : b + c < x + c), if_pos h]; exact ih _ _ _
      · rw [if_neg (by intro hc; exact h (by linarith)), if_neg h]; exact ih _ _ _

theorem maxIdxGo_shift (u : List ℝ) (c : ℝ) :
    maxIdxGo ((u.map (fun x => x + c)).map F.fin) = maxIdxGo (u.map F.fin) := by
  cases u with
  | nil => rfl
  | cons x xs => simpa only [maxIdxGo, List.map_cons, maxIdxAux] using maxIdxAux_shift c xs 1 x 0

theorem maxIdxAux_fin_spec : ∀ (w : List ℝ) (i0 : ℕ) (b : ℝ) (ind : ℕ),
    (maxIdxAux (w.map F.fin) i0 (F.fin b) ind = ind ∧ ∀ x ∈ w, x ≤ b) ∨
    (∃ t, t < w.length ∧ maxIdxAux (w.map F.fin) i0 (F.fin b) ind = i0 + t ∧
      b < w.getD t 0 ∧ (∀ s < t, w.getD s 0 < w.getD t 0) ∧
      (∀ s < w.length, w.getD s 0 ≤ w.getD t 0)) := by
  intro w
  induction w with
  | nil => intro i0 b ind; exact Or.inl ⟨rfl, by simp⟩
  | cons x xs ih =>
      intro i0 b ind
      simp only [List.map_cons, maxIdxAux]
      by_cases hbx : b < x
      · rw [if_pos hbx]
        rcases ih (i0 + 1) x i0 with ⟨heq, hall⟩ | ⟨t, ht, heq, hb, hfirst, hmax⟩
        · refine Or.inr ⟨0, by simp, by simpa using heq, by simpa using hbx, by simp, ?_⟩
          intro s hs
          cases s with
          | zero => simp
          | succ s' =>
              simp only [List.getD_cons_succ, List.getD_cons_zero]
              have hs' : s' < xs.length := by simpa using hs
              exact hall _ (by rw [List.getD_eq_getElem _ _ hs']; exact List.getElem_mem _)
        · refine Or.inr ⟨t + 1, by simpa using ht, ?_, ?_, ?_, ?_⟩
          · rw [heq]; omega
          · simpa [List.getD_cons_succ] using lt_trans hbx hb
          · intro s hs
            cases s with
            | zero => simpa [List.getD_cons_succ, List.getD_cons_zero] using hb
            | succ s' => simpa [List.getD_cons_succ] using hfirst s' (by omega)
          · intro s hs
            cases s with
            | zero => simpa [List.getD_cons_succ, List.getD_cons_zero] using le_of_lt hb
            | succ s' => simpa [List.getD_cons_succ] using hmax s' (by simpa using hs)
      · rw [if_neg hbx]
        have hxb : x ≤ b := le_of_not_lt hbx
        rcases ih (i0 + 1) b ind with ⟨heq, hall⟩ | ⟨t, ht, heq, hb, hfirst, hmax⟩
        · refine Or.inl ⟨heq, ?_⟩
          intro y hy
          rcases List.mem_cons.mp hy with h1 | h1
          · exact h1 ▸ hxb
          · exact hall _ h1
        · refine Or.inr ⟨t + 1, by simpa using ht, ?_, ?_, ?_, ?_⟩
          · rw [heq]; omega
          · simpa [List.getD_cons_succ] using hb
          · intro s hs
            cases s with
            | zero =>
                simp only [List.getD_cons_succ, List.getD_cons_zero]
                exact lt_of_le_of_lt hxb hb
            | succ s' => simpa [List.getD_cons_succ] using hfirst s' (by omega)
          · intro s hs
            cases s with
            | zero =>
                simp only [List.getD_cons_succ, List.getD_cons_zero]
                exact le_of_lt (lt_of_le_of_lt hxb hb)
            | succ s' => simpa [List.getD_cons_succ] using hmax s' (by simpa using hs)

theorem maxIdxGo_spec (u : List ℝ) (hu : u ≠ []) :
    maxIdxGo (u.map F.fin) < u.length ∧
    (∀ i < u.length, u.getD i 0 ≤ u.getD (maxIdxGo (u.map F.fin)) 0) ∧
    (∀ i < maxIdxGo (u.map F.fin), u.getD i 0 < u.getD (maxIdxGo (u.map F.fin)) 0) := by
  cases u with
  | nil => exact absurd rfl hu
  | cons x xs =>
      have hstep : maxIdxGo ((x :: xs).map F.fin) = maxIdxAux (xs.map F.fin) 1 (F.fin x) 0 := rfl
      rcases maxIdxAux_fin_spec xs 1 x 0 with ⟨heq, hall⟩ | ⟨t, ht, heq, hb, hfirst, hmax⟩
      · rw [hstep, heq]
        refine ⟨by simp, ?_, by simp⟩
        intro i hi
        cases i with
        | zero => simp
        | succ i' =>
            simp only [List.getD_cons_succ, List.getD_cons_zero]
            have hi' : i' < xs.length := by simpa using hi
            exact hall _ (by rw [List.getD_eq_getElem _ _ hi']; exact List.getElem_mem _)
      · rw [hstep, heq]
        have h1t : 1 + t = t + 1 := by omega
        rw [h1t]
        refine ⟨by simpa using ht, ?_, ?_⟩
        · intro i hi
          cases i with
          | zero => simpa [List.getD_cons_succ, List.getD_cons_zero] using le_of_lt hb
          | succ i' => simpa [List.getD_cons_succ] using hmax i' (by simpa using hi)
        · intro i hi
          cases i with
          | zero => simpa [List.getD_cons_succ, List.getD_cons_zero] using hb
          | succ i' => simpa [List.getD_cons_succ] using hfirst i' (by omega)

/-- C8: on a non-empty sentinel-free vector, greedy selection returns the
index of the maximum score, ties broken by the first occurrence. -/
theorem c8_greedy_argmax (u : List ℝ) (hu : u ≠ []) :
    ∃ jj : ℕ, greedySample (u.map F.fin) = .ok [F.fin (jj : ℝ)] ∧ jj < u.length ∧
      (∀ i < u.length, u.getD i 0 ≤ u.getD jj 0) ∧
      (∀ i < jj, u.getD i 0 < u.getD jj 0) := by
  obtain ⟨h1, h2, h3⟩ := maxIdxGo_spec u hu
  exact ⟨maxIdxGo (u.map F.fin), rfl, h1, h2, h3⟩

theorem c8_greedy_argmax_witness :
    (∃ jj : ℕ, greedySample ([(1:ℝ), 5, 3].map F.fin) = .ok [F.fin (jj : ℝ)] ∧
      jj < [(1:ℝ), 5, 3].length ∧
      (∀ i < [(1:ℝ), 5, 3].length, [(1:ℝ), 5, 3].getD i 0 ≤ [(1:ℝ), 5, 3].getD jj 0) ∧
      (∀ i < jj, [(1:ℝ), 5, 3].getD i 0 < [(1:ℝ), 5, 3].getD jj 0)) ∧
    greedySample ([(1:ℝ), 5, 3].map F.fin) = .ok [F.fin 1] :=
  ⟨c8_greedy_argmax [1, 5, 3] (by simp),
   by norm_num [greedySample, maxIdxGo, maxIdxAux]⟩

/-- C7: for valid `t` in `(0,2]`, adding a constant `c` to every score leaves
the softmax of the Temperature stage's output unchanged (the max-subtraction
cancels the shift; in fact the output vectors are identical). -/
theorem c7_temperature_shift_invariant (u : List ℝ) (c t : ℝ) (hu : u ≠ [])
    (ht0 : 0 < t) (ht2 : t ≤ 2) :
    ∃ w1 w2,
      temperatureSample t ((u.map (fun x => x + c)).map F.fin) = .ok w1 ∧
      temperatureSample t (u.map F.fin) = .ok w2 ∧
      computeSoftmaxF w1 = computeSoftmaxF w2 := by
  have hval : ¬ (t < 0 ∨ 2 < t) := by push_neg; constructor <;> linarith
  obtain ⟨hjlt, -, -⟩ := maxIdxGo_spec u hu
  have hjs : maxIdxGo ((u.map (fun x => x + c)).map F.fin) = maxIdxGo (u.map F.fin) :=
    maxIdxGo_shift u c
  have hM : fmaxGo (u.map F.fin) = F.fin (u.getD (maxIdxGo (u.map F.fin)) 0) := by
    rw [fmaxGo, getD_map_fin u hjlt]
  have hlen2 : maxIdxGo (u.map F.fin) < (u.map (fun x => x + c)).length := by simpa using hjlt
  have hMc : fmaxGo ((u.map (fun x => x + c)).map F.fin) =
      F.fin (u.getD (maxIdxGo (u.map F.fin)) 0 + c) := by
    rw [fmaxGo, hjs, getD_map_fin _ hlen2]
    congr 1
    rw [List.getD_eq_getElem _ _ hlen2, List.getD_eq_getElem _ _ hjlt]
    simp
  refine ⟨((u.map (fun x => x + c)).map F.fin).map
      (fun x => fdiv (fsub x (fmaxGo ((u.map (fun x => x + c)).map F.fin)))
        (F.fin (max t (1 / 10000000)))),
    (u.map F.fin).map
      (fun x => fdiv (fsub x (fmaxGo (u.map F.fin))) (F.fin (max t (1 / 10000000)))),
    by simp only [temperatureSample, if_neg hval],
    by simp only [temperatureSample, if_neg hval], ?_⟩
  have key : ((u.map (fun x => x + c)).map F.fin).map
      (fun x => fdiv (fsub x (fmaxGo ((u.map (fun x => x + c)).map F.fin)))
        (F.fin (max t (1 / 10000000)))) =
      (u.map F.fin).map
        (fun x => fdiv (fsub x (fmaxGo (u.map F.fin))) (F.fin (max t (1 / 10000000)))) := by
    rw [hM, hMc]
    simp only [List.map_map]
    refine List.map_congr_left fun a _ => ?_
    simp only [Function.comp_apply, fsub_fin_fin, fdiv_fin_fin]
    congr 2
    ring
  rw [key]

theorem c7_temperature_shift_invariant_witness :
    ∃ w1 w2,
      temperatureSample 1 (([(0:ℝ)].map (fun x => x + 1)).map F.fin) = .ok w1 ∧
      temperatureSample 1 ([(0:ℝ)].map F.fin) = .ok w2 ∧
      computeSoftmaxF w1 = computeSoftmaxF w2 :=
  c7_temperature_shift_invariant [0] 1 1 (by simp) (by norm_num) (by norm_num)

/-- C1: when the strategy list reaches a `Temperature(0)` entry (no earlier
entry being `Temperature(0)`), the driver skips everything after it and
returns the greedy selection computed on the vector as produced by the
earlier strategies; an error in an earlier strategy still aborts. -/
theorem c1_zero_temperature_short_circuit (take : List F → Option ℕ) (v : List F)
    (pre post : List GoSampler) (hpre : ∀ s ∈ pre, s ≠ GoSampler.temperature 0) :
    sampleDriver take (pre ++ GoSampler.temperature 0 :: post) v =
      (sampleDriver take pre v).bind greedySample := by
  revert hpre
  induction pre generalizing v with
  | nil =>
      intro _
      simp only [List.nil_append, sampleDriver, if_pos rfl]
      rfl
  | cons s rest ih =>
      intro hpre
      have hs : s ≠ GoSampler.temperature 0 := hpre s (List.mem_cons_self _ _)
      have hrest : ∀ x ∈ rest, x ≠ GoSampler.temperature 0 := fun x hx =>
        hpre x (List.mem_cons_of_mem _ hx)
      simp only [List.cons_append, sampleDriver, if_neg hs]
      cases hrun : runSampler take s v with
      | error e => rfl
      | ok l2 => exact ih l2 hrest

theorem c1_zero_temperature_short_circuit_witness :
    sampleDriver (fun _ => none) [GoSampler.temperature 0, GoSampler.topK 1]
      [F.fin 2, F.fin 9, F.fin 4] = .ok [F.fin 1] := by
  have h := c1_zero_temperature_short_circuit (fun _ => none) [F.fin 2, F.fin 9, F.fin 4]
    [] [GoSampler.topK 1] (by simp)
  simp only [List.nil_append] at h
  rw [h]
  norm_num [sampleDriver, greedySample, maxIdxGo, maxIdxAux, Except.bind]

theorem computeSoftmaxF_of_nan_mem {v : List F} (h : F.nan ∈ v) :
    computeSoftmaxF v = List.replicate v.length F.nan := by
  have hmem : F.nan ∈ v.map fexp := List.mem_map.mpr ⟨F.nan, h, by simp⟩
  have hsum : fsumF (v.map fexp) = F.nan := fsumF_of_nan_mem hmem
  simp only [computeSoftmaxF, hsum, fdiv_nan_right, fmul_nan_right]
  rw [List.eq_replicate_iff]
  refine ⟨by simp, ?_⟩
  intro b hb
  rcases List.mem_map.mp hb with ⟨x, _, hx⟩
  exact hx.symm

@[simp] theorem computeSoftmaxF_length (v : List F) :
    (computeSoftmaxF v).length = v.length := by
  simp [computeSoftmaxF]

/-- C9: a single NaN sentinel in the input turns every entry of the softmax
output into NaN, both in `computeSoftmax` and in the public `Softmax()`
sampler: the sentinel contaminates the normalizing sum of exponentials. -/
theorem c9_softmax_nan_contamination (v : List F) (h : F.nan ∈ v) :
    computeSoftmaxF v = List.replicate v.length F.nan ∧
    softmaxSample v = .ok (List.replicate v.length F.nan) :=
  ⟨computeSoftmaxF_of_nan_mem h, by rw [softmaxSample, computeSoftmaxF_of_nan_mem h]⟩

theorem c9_softmax_nan_contamination_witness :
    computeSoftmaxF [F.fin 1, F.nan] = List.replicate ([F.fin 1, F.nan] : List F).length F.nan ∧
    softmaxSample [F.fin 1, F.nan] =
      .ok (List.replicate ([F.fin 1, F.nan] : List F).length F.nan) :=
  c9_softmax_nan_contamination [F.fin 1, F.nan] (by simp)

theorem getD_replicate_nan (n i : ℕ) : (List.replicate n F.nan).getD i F.nan = F.nan := by
  by_cases h : i < n
  · rw [List.getD_eq_getElem _ _ (by simpa using h)]; simp
  · exact List.getD_eq_default _ _ (by simpa using not_lt.mp h)

theorem topPLoop_all_nan (p : ℝ) (logits probs : List F)
    (hp : ∀ i : ℕ, probs.getD i F.nan = F.nan) :
    ∀ (l : List ℕ) (c : F), topPLoop p logits probs l c = logits := by
  intro l
  induction l with
  | nil => intro c; rfl
  | cons idx rest ih =>
      intro c
      simp only [topPLoop, hp idx, fadd_nan_right]
      rw [if_neg (by simp [fgt])]
      exact ih _

theorem minPMark_nan_thr (logits probs : List F) : minPMark logits probs F.nan = logits := by
  rw [minPMark]
  generalize List.range probs.length = idxs
  induction idxs with
  | nil => rfl
  | cons i rest ih =>
      rw [List.foldl_cons, if_neg (flt_nan_right _)]
      exact ih

theorem sortAscF_replicate_nan (n : ℕ) :
    sortAscF (List.replicate n F.nan) = List.replicate n F.nan := by
  have hp := sortAscF_perm (List.replicate n F.nan)
  rw [List.eq_replicate_iff]
  exact ⟨by rw [hp.length_eq, List.length_replicate],
    fun b hb => List.eq_of_mem_replicate (hp.mem_iff.mp hb)⟩

/-- C10: once the vector contains a NaN sentinel, every softmax probability
is NaN, so the cumulative-sum and threshold comparisons in TopP and MinP are
all false and neither strategy excludes anything: both return the vector
unchanged. -/
theorem c10_topP_minP_noop_after_exclusion (v : List F) (p : ℝ) (hnan : F.nan ∈ v)
    (hp0 : 0 < p) (hp1 : p < 1) :
    topPSample p v = .ok v ∧ minPSample p v = .ok v := by
  have hval : ¬ (p ≤ 0 ∨ 1 ≤ p) := by push_neg; constructor <;> linarith
  have hprobs : computeSoftmaxF v = List.replicate v.length F.nan :=
    computeSoftmaxF_of_nan_mem hnan
  have hgetD : ∀ i : ℕ, (computeSoftmaxF v).getD i F.nan = F.nan := by
    intro i; rw [hprobs]; exact getD_replicate_nan _ _
  constructor
  · rw [topPSample, if_neg hval, topPLoop_all_nan p v (computeSoftmaxF v) hgetD]
  · rw [minPSample, if_neg hval]
    have hsort : sortAscF (computeSoftmaxF v) = List.replicate v.length F.nan := by
      rw [hprobs, sortAscF_replicate_nan]
    have hmaxProb : (sortAscF (computeSoftmaxF v)).getD
        ((sortAscF (computeSoftmaxF v)).length - 1) F.nan = F.nan := by
      rw [hsort]; exact getD_replicate_nan _ _
    rw [hmaxProb, fmul_nan_right, minPMark_nan_thr]

theorem c10_topP_minP_noop_after_exclusion_witness :
    topPSample (1 / 2) [F.nan, F.fin 1] = .ok [F.nan, F.fin 1] ∧
    minPSample (1 / 2) [F.nan, F.fin 1] = .ok [F.nan, F.fin 1] :=
  c10_topP_minP_noop_after_exclusion [F.nan, F.fin 1] (1 / 2) (by simp) (by norm_num)
    (by norm_num)

/-- C5 counterexample: on an all-NaN vector the error message produced by
`weighed.Sample` is "no valid tokens found", not "no valid tokens", so the
claim's iff fails as stated at input `[NaN]`. -/
theorem c5_weighed_message_counterexample :
    weighedSample (fun _ => none) [F.nan] = .error "no valid tokens found" ∧
    (Except.error "no valid tokens found" : Except String (List F)) ≠
      .error "no valid tokens" := by
  constructor
  · rw [weighedSample, if_pos (by simp)]
  · intro h
    have h2 : "no valid tokens found" = "no valid tokens" := by injection h
    exact absurd h2 (by decide)

/-- C5 (amended to the code's message): `weighed.Sample` fails with
"no valid tokens found" exactly when every position is the NaN sentinel, and
a successful draw always returns an original index whose position was not
the sentinel (given that the injected draw capability returns an in-range
index, as `sampleuv.Weighted.Take` does). -/
theorem c5_weighed_no_valid_tokens (take : List F → Option ℕ) (v : List F)
    (htake : ∀ w n, take w = some n → n < w.length) :
    (weighedSample take v = .error "no valid tokens found" ↔ ∀ x ∈ v, x.isNaN = true) ∧
    (∀ r, weighedSample take v = .ok r →
      ∃ n : ℕ, r = [F.fin (n : ℝ)] ∧ n < v.length ∧ (v.getD n F.nan).isNaN = false) := by
  have hiff : (((v.enum.filter (fun pr => !pr.2.isNaN)).map (fun pr => pr.2)).length = 0)
      ↔ ∀ x ∈ v, x.isNaN = true := by
    rw [List.length_eq_zero, List.map_eq_nil_iff, List.filter_eq_nil_iff]
    constructor
    · intro h x hx
      have hx2 : x ∈ v.enum.map Prod.snd := by rw [List.enum_map_snd]; exact hx
      rcases List.mem_map.mp hx2 with ⟨pr, hpr, he⟩
      have := h pr hpr
      rw [he] at this
      simpa using this
    · intro h pr hpr
      have h2 : pr.2 ∈ v := by
        rw [← List.enum_map_snd v]
        exact List.mem_map.mpr ⟨pr, hpr, rfl⟩
      simp [h pr.2 h2]
  by_cases hempty : ((v.enum.filter (fun pr => !pr.2.isNaN)).map (fun pr => pr.2)).length = 0
  · refine ⟨iff_of_true (by rw [weighedSample, if_pos hempty]) (hiff.mp hempty), ?_⟩
    intro r hr
    rw [weighedSample, if_pos hempty] at hr
    exact absurd hr (by simp)
  · have hrhs : ¬ ∀ x ∈ v, x.isNaN = true := fun hall => hempty (hiff.mpr hall)
    constructor
    · refine iff_of_false ?_ hrhs
      rw [weighedSample, if_neg hempty]
      cases htk : take (computeSoftmaxF ((v.enum.filter (fun pr => !pr.2.isNaN)).map
          (fun pr => pr.2))) with
      | some m => simp
      | none =>
          simp only []
          intro h
          have h2 : "weighed sampler failed" = "no valid tokens found" := by injection h
          exact absurd h2 (by decide)
    · intro r hr
      rw [weighedSample, if_neg hempty] at hr
      cases htk : take (computeSoftmaxF ((v.enum.filter (fun pr => !pr.2.isNaN)).map
          (fun pr => pr.2))) with
      | none => rw [htk] at hr; exact absurd hr (by simp)
      | some m =>
          rw [htk] at hr
          have hrr : r = [F.fin ((((v.enum.filter (fun pr => !pr.2.isNaN)).map
              (fun pr => pr.1)).getD m 0 : ℕ) : ℝ)] := by
            have := hr
            simp only [Except.ok.injEq] at this
            exact this.symm
          have hm : m < ((v.enum.filter (fun pr => !pr.2.isNaN)).map
              (fun pr => pr.2)).length := by
            have := htake _ _ htk
            simpa using this
          have hmlen : m < ((v.enum.filter (fun pr => !pr.2.isNaN)).map
              (fun pr => pr.1)).length := by
            simpa using hm
          have hmem : (((v.enum.filter (fun pr => !pr.2.isNaN)).map
              (fun pr => pr.1)).getD m 0) ∈ (v.enum.filter (fun pr => !pr.2.isNaN)).map
              (fun pr => pr.1) := by
            rw [List.getD_eq_getElem _ _ hmlen]
            exact List.getElem_mem _
          rcases List.mem_map.mp hmem with ⟨pr, hprmem, hpr1⟩
          have hprenum : pr ∈ v.enum := (List.mem_filter.mp hprmem).1
          have hprnan : (!pr.2.isNaN) = true := (List.mem_filter.mp hprmem).2
          have hget : v[pr.1]? = some pr.2 :=
            List.mk_mem_enum_iff_getElem?.mp (by simpa using hprenum)
          obtain ⟨hlt, hgetv⟩ := List.getElem?_eq_some.mp hget
          rw [← hpr1] at hrr
          refine ⟨pr.1, hrr, hlt, ?_⟩
          have hvd : v.getD pr.1 F.nan = pr.2 := by
            rw [List.getD_eq_getElem _ _ hlt]
            exact hgetv
          rw [hvd]
          simpa using hprnan

theorem c5_weighed_no_valid_tokens_witness :
    (weighedSample (fun w => if w.length = 0 then none else some 0) [F.nan] =
        .error "no valid tokens found" ↔ ∀ x ∈ ([F.nan] : List F), x.isNaN = true) ∧
    (∀ r, weighedSample (fun w => if w.length = 0 then none else some 0) [F.nan] = .ok r →
      ∃ n : ℕ, r = [F.fin (n : ℝ)] ∧ n < ([F.nan] : List F).length ∧
        (([F.nan] : List F).getD n F.nan).isNaN = false) :=
  c5_weighed_no_valid_tokens _ [F.nan] (fun w n h => by
    by_cases hw : w.length = 0
    · rw [if_pos hw] at h; exact absurd h (by simp)
    · rw [if_neg hw] at h
      have hn : 0 = n := by injection h
      rw [← hn]
      exact Nat.pos_of_ne_zero hw)

/-- C2 counterexample: as stated over every vector and every integer `k` the
claim fails twice: with `k = 0` and the empty vector, `k ≥ length` yet TopK
reports an error instead of the identity; and on `[NaN, NaN, 1]` with
`k = 2 < 3` the result keeps only one non-sentinel position, not `k`. -/
theorem c2_topk_counterexample :
    topKSample 0 ([] : List F) = .error "k must be positive" ∧
    topKSample 2 [F.nan, F.nan, F.fin 1] = .ok [F.nan, F.nan, F.fin 1] ∧
    ([F.nan, F.nan, F.fin 1] : List F).countP (fun x => !x.isNaN) ≠ (2 : ℤ).toNat := by
  refine ⟨by rw [topKSample, if_pos le_rfl], ?_, by decide⟩
  have hr : List.range ([F.nan, F.nan, F.fin 1] : List F).length = [0, 1, 2] := rfl
  rw [topKSample, if_neg (by norm_num), if_neg (by norm_num)]
  rw [sortIdxDesc, hr]
  have h2 : Int.toNat 2 = 2 := rfl
  norm_num [List.insertionSort, List.orderedInsert, List.getD_cons_zero,
    List.getD_cons_succ, fle, setNaNs, h2, List.set_cons_succ, List.set_cons_zero]

/-- C2 (amended): for sentinel-free vectors and positive `k`: TopK is the
identity when `k ≥ length`; when `k < length` exactly the positions of a
`k.toNat`-element duplicate-free keep-set survive with their original scores,
every other position holds the sentinel, and every kept score is at least
every excluded score (the kept scores are the `k` largest). -/
theorem c2_topk_filter (u : List ℝ) (k : ℤ) (hk : 0 < k) :
    ((u.length : ℤ) ≤ k → topKSample k (u.map F.fin) = .ok (u.map F.fin)) ∧
    (k < (u.length : ℤ) → ∃ (r : List F) (keep : List ℕ), topKSample k (u.map F.fin) = .ok r ∧
      r.length = u.length ∧ keep.length = k.toNat ∧ keep.Nodup ∧
      (∀ j ∈ keep, j < u.length ∧ r.getD j F.nan = F.fin (u.getD j 0)) ∧
      (∀ j < u.length, j ∉ keep → r.getD j F.nan = F.nan) ∧
      (∀ i ∈ keep, ∀ j < u.length, j ∉ keep → u.getD j 0 ≤ u.getD i 0)) := by
  have hk0 : ¬ k ≤ 0 := not_le.mpr hk
  constructor
  · intro hlen
    rw [topKSample, if_neg hk0, if_pos (by simpa using hlen)]
  · intro hlt
    have hlt' : ¬ (((u.map F.fin).length : ℤ) ≤ k) := by
      rw [not_le]; simpa using hlt
    have hktn : k.toNat < u.length := by omega
    set v := u.map F.fin with hv
    have hvlen : v.length = u.length := by rw [hv, List.length_map]
    have hperm := sortIdxDesc_perm v
    have hsorted := sortIdxDesc_sorted v
    have hnodup := sortIdxDesc_nodup v
    have hslen : (sortIdxDesc v).length = v.length := sortIdxDesc_length v
    set keep := (sortIdxDesc v).take k.toNat with hkeep
    set dropped := (sortIdxDesc v).drop k.toNat with hdropped
    have hsplit : keep ++ dropped = sortIdxDesc v := List.take_append_drop _ _
    have hdisj : keep.Disjoint dropped := by
      have h1 : (keep ++ dropped).Nodup := by rw [hsplit]; exact hnodup
      exact (List.nodup_append.mp h1).2.2
    have hmemlt : ∀ j ∈ sortIdxDesc v, j < u.length := by
      intro j hj
      have := mem_sortIdxDesc.mp hj
      rwa [hvlen] at this
    refine ⟨setNaNs v dropped, keep, ?_, ?_, ?_, ?_, ?_, ?_, ?_⟩
    · rw [topKSample, if_neg hk0, if_neg hlt']
    · rw [setNaNs_length, hvlen]
    · rw [hkeep, List.length_take, hslen, hvlen]
      exact min_eq_left (le_of_lt hktn)
    · exact hnodup.sublist (hsplit ▸ List.sublist_append_left keep dropped)
    · intro j hj
      have hjs : j ∈ sortIdxDesc v := hsplit ▸ List.mem_append_left dropped hj
      have hjlt : j < u.length := hmemlt j hjs
      refine ⟨hjlt, ?_⟩
      rw [setNaNs_getD_not_mem (fun hc => hdisj hj hc), hv, getD_map_fin u hjlt]
    · intro j hjlt hjnk
      have hjs : j ∈ sortIdxDesc v := mem_sortIdxDesc.mpr (by rwa [hvlen])
      have hjka : j ∈ keep ++ dropped := hsplit.symm ▸ hjs
      have hjd : j ∈ dropped := by
        rcases List.mem_append.mp hjka with h1 | h1
        · exact absurd h1 hjnk
        · exact h1
      exact setNaNs_getD_mem hjd v (by rwa [hvlen])
    · intro i hi j hjlt hjnk
      have hjs : j ∈ sortIdxDesc v := mem_sortIdxDesc.mpr (by rwa [hvlen])
      have hjka : j ∈ keep ++ dropped := hsplit.symm ▸ hjs
      have hjd : j ∈ dropped := by
        rcases List.mem_append.mp hjka with h1 | h1
        · exact absurd h1 hjnk
        · exact h1
      have hrel : descRel v i j := hsorted.rel_of_mem_take_of_mem_drop hi hjd
      have hilt : i < u.length := hmemlt i (hsplit ▸ List.mem_append_left dropped hi)
      rw [descRel, hv, getD_map_fin u hjlt, getD_map_fin u hilt] at hrel
      exact (fle_fin_fin _ _).mp hrel

theorem c2_topk_filter_witness :
    ((([(1:ℝ), 2].length : ℤ) ≤ 1 → topKSample 1 ([(1:ℝ), 2].map F.fin) =
        .ok ([(1:ℝ), 2].map F.fin)) ∧
    (1 < (([(1:ℝ), 2].length : ℤ)) → ∃ (r : List F) (keep : List ℕ),
      topKSample 1 ([(1:ℝ), 2].map F.fin) = .ok r ∧
      r.length = [(1:ℝ), 2].length ∧ keep.length = (1 : ℤ).toNat ∧ keep.Nodup ∧
      (∀ j ∈ keep, j < [(1:ℝ), 2].length ∧ r.getD j F.nan = F.fin ([(1:ℝ), 2].getD j 0)) ∧
      (∀ j < [(1:ℝ), 2].length, j ∉ keep → r.getD j F.nan = F.nan) ∧
      (∀ i ∈ keep, ∀ j < [(1:ℝ), 2].length, j ∉ keep →
        [(1:ℝ), 2].getD j 0 ≤ [(1:ℝ), 2].getD i 0))) :=
  c2_topk_filter [1, 2] 1 (by norm_num)

theorem minP_foldl_length (probs : List F) (thr : F) :
    ∀ (idxs : List ℕ) (l : List F),
      (idxs.foldl (fun acc i => if flt (probs.getD i F.nan) thr then acc.set i F.nan
        else acc) l).length = l.length := by
  intro idxs
  induction idxs with
  | nil => intro l; rfl
  | cons i rest ih =>
      intro l
      rw [List.foldl_cons, ih]
      by_cases h : flt (probs.getD i F.nan) thr
      · rw [if_pos h, List.length_set]
      · rw [if_neg h]

theorem minP_foldl_getD_not_mem (probs : List F) (thr : F) {j : ℕ} :
    ∀ (idxs : List ℕ), j ∉ idxs → ∀ (l : List F) (d : F),
      (idxs.foldl (fun acc i => if flt (probs.getD i F.nan) thr then acc.set i F.nan
        else acc) l).getD j d = l.getD j d := by
  intro idxs
  induction idxs with
  | nil => intro _ l d; rfl
  | cons i rest ih =>
      intro hj l d
      have hji : j ≠ i := fun he => hj (he ▸ List.mem_cons_self i rest)
      have hjr : j ∉ rest := fun he => hj (List.mem_cons_of_mem i he)
      rw [List.foldl_cons, ih hjr]
      by_cases h : flt (probs.getD i F.nan) thr
      · rw [if_pos h]
        simp [List.getD_eq_getElem?_getD, List.getElem?_set_ne (Ne.symm hji)]
      · rw [if_neg h]

theorem minP_foldl_getD_mem (probs : List F) (thr : F) {j : ℕ} :
    ∀ (idxs : List ℕ), idxs.Nodup → j ∈ idxs → ∀ l : List F, j < l.length →
      (idxs.foldl (fun acc i => if flt (probs.getD i F.nan) thr then acc.set i F.nan
        else acc) l).getD j F.nan =
        if flt (probs.getD j F.nan) thr then F.nan else l.getD j F.nan := by
  intro idxs
  induction idxs with
  | nil => intro _ h; simp at h
  | cons i rest ih =>
      intro hnd hj l hl
      rcases List.mem_cons.mp hj with hji | hjr
      · subst hji
        have hjr : j ∉ rest := (List.nodup_cons.mp hnd).1
        rw [List.foldl_cons, minP_foldl_getD_not_mem probs thr rest hjr]
        by_cases h : flt (probs.getD j F.nan) thr
        · rw [if_pos h, if_pos h]
          simp [List.getD_eq_getElem?_getD, List.getElem?_set_self, hl]
        · rw [if_neg h, if_neg h]
      · have hnd2 : rest.Nodup := (List.nodup_cons.mp hnd).2
        rw [List.foldl_cons]
        by_cases h : flt (probs.getD i F.nan) thr
        · rw [if_pos h, ih hnd2 hjr _ (by rw [List.length_set]; exact hl)]
          by_cases h2 : flt (probs.getD j F.nan) thr
          · rw [if_pos h2, if_pos h2]
          · rw [if_neg h2, if_neg h2]
            by_cases hji : j = i
            · subst hji; exact absurd hjr (List.nodup_cons.mp hnd).1
            · simp [List.getD_eq_getElem?_getD, List.getElem?_set_ne (Ne.symm hji)]
        · rw [if_neg h, ih hnd2 hjr _ hl]

theorem minPMark_getD (logits probs : List F) (thr : F)
    (hlen : probs.length = logits.length) {j : ℕ} (hj : j < logits.length) :
    (minPMark logits probs thr).getD j F.nan =
      if flt (probs.getD j F.nan) thr then F.nan else logits.getD j F.nan := by
  rw [minPMark]
  exact minP_foldl_getD_mem probs thr (List.range probs.length) (List.nodup_range _)
    (List.mem_range.mpr (by omega)) logits hj

theorem minPMark_length (logits probs : List F) (thr : F) :
    (minPMark logits probs thr).length = logits.length := by
  rw [minPMark]; exact minP_foldl_length probs thr _ _

theorem sortAscF_getLast_max (l : List F) (hl : l ≠ []) :
    ((sortAscF l).getD ((sortAscF l).length - 1) F.nan) ∈ l ∧
    ∀ x ∈ l, fle x ((sortAscF l).getD ((sortAscF l).length - 1) F.nan) := by
  have hperm := sortAscF_perm l
  have hsorted := sortAscF_sorted l
  have hne : sortAscF l ≠ [] := by
    intro hc
    rw [← List.length_pos] at hl
    rw [← hperm.length_eq, hc] at hl
    simp at hl
  have hpos : 0 < (sortAscF l).length := List.length_pos.mpr hne
  have hlast : (sortAscF l).length - 1 < (sortAscF l).length := by omega
  constructor
  · apply hperm.mem_iff.mp
    rw [List.getD_eq_getElem _ _ hlast]
    exact List.getElem_mem _
  · intro x hx
    have hx2 : x ∈ sortAscF l := hperm.mem_iff.mpr hx
    rcases List.mem_iff_get.mp hx2 with ⟨idx, hidx⟩
    rw [List.getD_eq_getElem _ _ hlast]
    rw [List.get_eq_getElem] at hidx
    by_cases hcase : (idx : ℕ) = (sortAscF l).length - 1
    · simp only [hcase] at hidx
      rw [← hidx]
      exact fle_refl _
    · have hlt' : (idx : ℕ) < (sortAscF l).length - 1 := by
        have := idx.isLt
        omega
      have hfin : idx < (⟨(sortAscF l).length - 1, hlast⟩ : Fin (sortAscF l).length) := by
        rw [Fin.lt_def]
        exact hlt'
      have hrel := hsorted.rel_get_of_lt hfin
      rw [List.get_eq_getElem, List.get_eq_getElem] at hrel
      rw [hidx] at hrel
      simpa using hrel

/-- C4: on a non-empty sentinel-free vector with `p` in `(0,1)`, MinP
overwrites with the sentinel exactly the positions whose softmax probability
is strictly below `p` times the maximum probability; positions at or above
the threshold keep their original scores. -/
theorem c4_minp_threshold (u : List ℝ) (p : ℝ) (hu : u ≠ []) (hp0 : 0 < p)
    (hp1 : p < 1) :
    ∃ (r : List F) (M : ℝ), minPSample p (u.map F.fin) = .ok r ∧
      r.length = u.length ∧ M ∈ softmaxR u ∧ (∀ x ∈ softmaxR u, x ≤ M) ∧
      ∀ j < u.length,
        ((softmaxR u).getD j 0 < p * M → r.getD j F.nan = F.nan) ∧
        (p * M ≤ (softmaxR u).getD j 0 → r.getD j F.nan = F.fin (u.getD j 0)) := by
  have hval : ¬ (p ≤ 0 ∨ 1 ≤ p) := by push_neg; constructor <;> linarith
  have hsoft : computeSoftmaxF (u.map F.fin) = (softmaxR u).map F.fin :=
    computeSoftmaxF_map_fin u
  have hqne : (softmaxR u).map F.fin ≠ [] := by
    intro hc
    have h2 := congrArg List.length hc
    simp at h2
    exact hu h2
  obtain ⟨hmem, hmax⟩ := sortAscF_getLast_max ((softmaxR u).map F.fin) hqne
  rcases List.mem_map.mp hmem with ⟨M, hMq, hMe⟩
  refine ⟨minPMark (u.map F.fin) ((softmaxR u).map F.fin) (F.fin (p * M)), M, ?_, ?_,
    hMq, ?_, ?_⟩
  · rw [minPSample, if_neg hval, hsoft, ← hMe, fmul_fin_fin]
  · rw [minPMark_length, List.length_map]
  · intro x hx
    have := hmax (F.fin x) (List.mem_map.mpr ⟨x, hx, rfl⟩)
    rw [← hMe] at this
    exact (fle_fin_fin _ _).mp this
  · intro j hj
    have hjq : j < (softmaxR u).length := by simpa using hj
    have hmark := minPMark_getD (u.map F.fin) ((softmaxR u).map F.fin) (F.fin (p * M))
      (by simp) (by simpa using hj)
    rw [getD_map_fin (softmaxR u) hjq] at hmark
    constructor
    · intro hlt
      rw [hmark, if_pos ((flt_fin_fin _ _).mpr hlt)]
    · intro hge
      rw [hmark, if_neg (by rw [flt_fin_fin]; exact not_lt.mpr hge), getD_map_fin u hj]

theorem c4_minp_threshold_witness :
    ∃ (r : List F) (M : ℝ), minPSample (1 / 2) ([(0:ℝ), 0].map F.fin) = .ok r ∧
      r.length = [(0:ℝ), 0].length ∧ M ∈ softmaxR [(0:ℝ), 0] ∧
      (∀ x ∈ softmaxR [(0:ℝ), 0], x ≤ M) ∧
      ∀ j < [(0:ℝ), 0].length,
        ((softmaxR [(0:ℝ), 0]).getD j 0 < 1 / 2 * M → r.getD j F.nan = F.nan) ∧
        (1 / 2 * M ≤ (softmaxR [(0:ℝ), 0]).getD j 0 →
          r.getD j F.nan = F.fin ([(0:ℝ), 0].getD j 0)) :=
  c4_minp_threshold [0, 0] (1 / 2) (by simp) (by norm_num) (by norm_num)

theorem map_getD_range (q : List ℝ) :
    (List.range q.length).map (fun i => q.getD i 0) = q := by
  apply List.ext_getElem (by simp)
  intro i h1 h2
  simp [List.getD_eq_getElem _ _ h2, List.getElem?_eq_getElem h2]

theorem topPLoop_crossing (p : ℝ) (logits probs : List F) :
    ∀ (l : List ℕ) (s : ℝ),
      (∀ i ∈ l, ∃ a : ℝ, 0 ≤ a ∧ probs.getD i F.nan = F.fin a) →
      s ≤ p →
      p < s + (l.map (fun i => (probs.getD i F.nan).val)).sum →
      ∃ (a : List ℕ) (idx : ℕ) (b : List ℕ), l = a ++ idx :: b ∧
        topPLoop p logits probs l (F.fin s) = setNaNs logits b ∧
        p < s + ((a ++ [idx]).map (fun i => (probs.getD i F.nan).val)).sum ∧
        s + (a.map (fun i => (probs.getD i F.nan).val)).sum ≤ p := by
  intro l
  induction l with
  | nil =>
      intro s _ hs hsum
      simp only [List.map_nil, List.sum_nil, add_zero] at hsum
      exact absurd hsum (not_lt.mpr hs)
  | cons idx rest ih =>
      intro s hfin hs hsum
      obtain ⟨q, hq0, hqe⟩ := hfin idx (List.mem_cons_self _ _)
      have hfin' : ∀ i ∈ rest, ∃ a : ℝ, 0 ≤ a ∧ probs.getD i F.nan = F.fin a :=
        fun i hi => hfin i (List.mem_cons_of_mem _ hi)
      rw [topPLoop, hqe, fadd_fin_fin]
      by_cases hcross : p < s + q
      · rw [if_pos (show fgt (F.fin (s + q)) (F.fin p) from (flt_fin_fin _ _).mpr hcross)]
        refine ⟨[], idx, rest, rfl, rfl, ?_, ?_⟩
        · simp only [List.nil_append, List.map_cons, List.map_nil, List.sum_cons,
            List.sum_nil, add_zero, hqe, val_fin]
          exact hcross
        · simpa using hs
      · rw [if_neg (show ¬ fgt (F.fin (s + q)) (F.fin p) by rw [fgt, flt_fin_fin]; exact hcross)]
        have hs' : s + q ≤ p := not_lt.mp hcross
        have hsum' : p < (s + q) + (rest.map (fun i => (probs.getD i F.nan).val)).sum := by
          rw [List.map_cons, List.sum_cons, hqe] at hsum
          simp only [val_fin] at hsum
          linarith
        obtain ⟨a, idx2, b, heq, hloop, h1, h2⟩ := ih (s + q) hfin' hs' hsum'
        refine ⟨idx :: a, idx2, b, by rw [heq]; rfl, hloop, ?_, ?_⟩
        · rw [List.cons_append, List.map_cons, List.sum_cons, hqe]
          simp only [val_fin]
          linarith
        · rw [List.map_cons, List.sum_cons, hqe]
          simp only [val_fin]
          linarith

/-- C3 counterexample: on the empty vector TopP keeps nothing — the
surviving set is empty, contradicting the claimed non-emptiness as stated
for every sentinel-free vector. -/
theorem c3_topp_counterexample :
    topPSample (1 / 2) ([] : List F) = .ok [] ∧
    ¬ ∃ x ∈ ([] : List F), ¬ x.isNaN = true := by
  refine ⟨?_, by simp⟩
  rw [topPSample, if_neg (by norm_num)]
  rfl

/-- C3 (amended to non-empty input): on a non-empty sentinel-free vector with
`p` in `(0,1)`, TopP keeps exactly the minimal prefix of the code's
descending-probability index ranking whose cumulative softmax probability
strictly exceeds `p` (so the surviving set is non-empty); surviving positions
keep their original pre-softmax scores and every other position gets the
sentinel. -/
theorem c3_topp_minimal_prefix (u : List ℝ) (p : ℝ) (hu : u ≠ []) (hp0 : 0 < p)
    (hp1 : p < 1) :
    ∃ (r : List F) (m : ℕ),
      topPSample p (u.map F.fin) = .ok r ∧ r.length = u.length ∧
      (sortIdxDesc ((softmaxR u).map F.fin)).Perm (List.range u.length) ∧
      List.Pairwise (fun i j => (softmaxR u).getD j 0 ≤ (softmaxR u).getD i 0)
        (sortIdxDesc ((softmaxR u).map F.fin)) ∧
      0 < m ∧ m ≤ u.length ∧
      p < (((sortIdxDesc ((softmaxR u).map F.fin)).take m).map
        (fun i => (softmaxR u).getD i 0)).sum ∧
      (∀ m' < m, (((sortIdxDesc ((softmaxR u).map F.fin)).take m').map
        (fun i => (softmaxR u).getD i 0)).sum ≤ p) ∧
      (∀ j ∈ (sortIdxDesc ((softmaxR u).map F.fin)).take m,
        r.getD j F.nan = F.fin (u.getD j 0)) ∧
      (∀ j ∈ (sortIdxDesc ((softmaxR u).map F.fin)).drop m,
        r.getD j F.nan = F.nan) := by
  have hval : ¬ (p ≤ 0 ∨ 1 ≤ p) := by push_neg; constructor <;> linarith
  have hsoft : computeSoftmaxF (u.map F.fin) = (softmaxR u).map F.fin :=
    computeSoftmaxF_map_fin u
  set q := softmaxR u with hq
  have hqlen : q.length = u.length := softmaxR_length u
  set sd := sortIdxDesc (q.map F.fin) with hsd
  have hperm : sd.Perm (List.range u.length) := by
    rw [hsd]
    have h0 := sortIdxDesc_perm (q.map F.fin)
    rwa [List.length_map, hqlen] at h0
  have hmemlt : ∀ i ∈ sd, i < u.length := fun i hi => by
    have := hperm.mem_iff.mp hi
    simpa using this
  have hsorted0 := sortIdxDesc_sorted (q.map F.fin)
  have hpair : List.Pairwise (fun i j => q.getD j 0 ≤ q.getD i 0) sd := by
    refine List.Pairwise.imp_of_mem ?_ hsorted0
    intro i j hi hj hrel
    have hilt : i < q.length := by rw [hqlen]; exact hmemlt i (hsd ▸ hi)
    have hjlt : j < q.length := by rw [hqlen]; exact hmemlt j (hsd ▸ hj)
    rw [descRel, getD_map_fin q hjlt, getD_map_fin q hilt] at hrel
    exact (fle_fin_fin _ _).mp hrel
  have hq0 : ∀ i, i < u.length → 0 ≤ q.getD i 0 := by
    intro i hilt'
    have hilt : i < q.length := by rw [hqlen]; exact hilt'
    have hmem : q.getD i 0 ∈ q := by
      rw [List.getD_eq_getElem _ _ hilt]; exact List.getElem_mem _
    exact (softmaxR_pos hu _ hmem).le
  have hfin : ∀ i ∈ sd, ∃ a : ℝ, 0 ≤ a ∧ (q.map F.fin).getD i F.nan = F.fin a := by
    intro i hi
    have hilt : i < q.length := by rw [hqlen]; exact hmemlt i hi
    exact ⟨q.getD i 0, hq0 i (hmemlt i hi), getD_map_fin q hilt⟩
  have hfval : ∀ (l : List ℕ), (∀ i ∈ l, i ∈ sd) →
      l.map (fun i => ((q.map F.fin).getD i F.nan).val) = l.map (fun i => q.getD i 0) := by
    intro l hl
    refine List.map_congr_left fun i hi => ?_
    have hilt : i < q.length := by rw [hqlen]; exact hmemlt i (hl i hi)
    rw [getD_map_fin q hilt, val_fin]
  have hsum1 : (sd.map (fun i => q.getD i 0)).sum = 1 := by
    have hpm : (sd.map (fun i => q.getD i 0)).Perm
        ((List.range u.length).map (fun i => q.getD i 0)) := hperm.map _
    rw [hpm.sum_eq, ← hqlen, map_getD_range q]
    exact softmaxR_sum u hu
  have htotal : p < 0 + (sd.map (fun i => ((q.map F.fin).getD i F.nan).val)).sum := by
    rw [hfval sd (fun i hi => hi), hsum1]
    linarith
  obtain ⟨a, idx, b, heq, hloop, h1, h2⟩ :=
    topPLoop_crossing p (u.map F.fin) (q.map F.fin) sd 0 hfin (le_of_lt hp0) htotal
  have heq2 : sd = (a ++ [idx]) ++ b := by rw [heq]; simp
  have hsub : ∀ i ∈ a ++ [idx], i ∈ sd := by
    intro i hi
    rw [heq2]
    exact List.mem_append_left b hi
  have hsuba : ∀ i ∈ a, i ∈ sd := fun i hi => hsub i (List.mem_append_left _ hi)
  have hsubb : ∀ i ∈ b, i ∈ sd := by
    intro i hi
    rw [heq2]
    exact List.mem_append_right _ hi
  have hlen2 : (a ++ [idx]).length = a.length + 1 := by simp
  have hsdlen : sd.length = u.length := by
    rw [hperm.length_eq, List.length_range]
  have htake : sd.take (a.length + 1) = a ++ [idx] := by
    rw [heq2]; exact List.take_left' hlen2
  have hdrop : sd.drop (a.length + 1) = b := by
    rw [heq2]; exact List.drop_left' hlen2
  have hnodup : sd.Nodup := hsd ▸ sortIdxDesc_nodup (q.map F.fin)
  have hdisj : (a ++ [idx]).Disjoint b := by
    have h3 : ((a ++ [idx]) ++ b).Nodup := heq2 ▸ hnodup
    exact (List.nodup_append.mp h3).2.2
  refine ⟨setNaNs (u.map F.fin) b, a.length + 1, ?_, ?_, hperm, hpair,
    Nat.succ_pos _, ?_, ?_, ?_, ?_, ?_⟩
  · rw [topPSample, if_neg hval, hsoft, ← hsd, hloop]
  · rw [setNaNs_length, List.length_map]
  · have h3 := congrArg List.length heq2
    rw [hsdlen] at h3
    simp at h3
    omega
  · rw [htake, ← hfval (a ++ [idx]) hsub]
    simpa using h1
  · intro m' hm'
    have hm'a : m' ≤ a.length := by omega
    have htake' : sd.take m' = a.take m' := by
      rw [heq2, List.take_append_of_le_length (by simp; omega),
        List.take_append_of_le_length hm'a]
    rw [htake']
    have hsplit2 : (a.map (fun i => q.getD i 0)).sum =
        ((a.take m').map (fun i => q.getD i 0)).sum +
        ((a.drop m').map (fun i => q.getD i 0)).sum := by
      conv_lhs => rw [← List.take_append_drop m' a]
      rw [List.map_append, List.sum_append]
    have hnn : 0 ≤ ((a.drop m').map (fun i => q.getD i 0)).sum := by
      refine List.sum_nonneg ?_
      intro x hx
      rcases List.mem_map.mp hx with ⟨i, hi, rfl⟩
      exact hq0 i (hmemlt i (hsuba i (List.mem_of_mem_drop hi)))
    have ha2 : (a.map (fun i => q.getD i 0)).sum ≤ p := by
      have := h2
      rw [hfval a hsuba] at this
      linarith
    linarith
  · intro j hj
    rw [htake] at hj
    have hjn : j ∉ b := fun hc => hdisj hj hc
    have hjlt : j < u.length := hmemlt j (hsub j hj)
    rw [setNaNs_getD_not_mem hjn, getD_map_fin u hjlt]
  · intro j hj
    rw [hdrop] at hj
    have hjlt : j < u.length := hmemlt j (hsubb j hj)
    exact setNaNs_getD_mem hj (u.map F.fin) (by simpa using hjlt)

theorem c3_topp_minimal_prefix_witness :
    ∃ (r : List F) (m : ℕ),
      topPSample (3 / 5) ([(0:ℝ), 0].map F.fin) = .ok r ∧ r.length = [(0:ℝ), 0].length ∧
      (sortIdxDesc ((softmaxR [(0:ℝ), 0]).map F.fin)).Perm
        (List.range [(0:ℝ), 0].length) ∧
      List.Pairwise (fun i j => (softmaxR [(0:ℝ), 0]).getD j 0 ≤
        (softmaxR [(0:ℝ), 0]).getD i 0) (sortIdxDesc ((softmaxR [(0:ℝ), 0]).map F.fin)) ∧
      0 < m ∧ m ≤ [(0:ℝ), 0].length ∧
      3 / 5 < (((sortIdxDesc ((softmaxR [(0:ℝ), 0]).map F.fin)).take m).map
        (fun i => (softmaxR [(0:ℝ), 0]).getD i 0)).sum ∧
      (∀ m' < m, (((sortIdxDesc ((softmaxR [(0:ℝ), 0]).map F.fin)).take m').map
        (fun i => (softmaxR [(0:ℝ), 0]).getD i 0)).sum ≤ 3 / 5) ∧
      (∀ j ∈ (sortIdxDesc ((softmaxR [(0:ℝ), 0]).map F.fin)).take m,
        r.getD j F.nan = F.fin ([(0:ℝ), 0].getD j 0)) ∧
      (∀ j ∈ (sortIdxDesc ((softmaxR [(0:ℝ), 0]).map F.fin)).drop m,
        r.getD j F.nan = F.nan) :=
  c3_topp_minimal_prefix [0, 0] (3 / 5) (by simp) (by norm_num) (by norm_num)
